import Mathlib

/-!
Verification of the loop-invariant code motion (LICM) pass in
`src/passes/LoopInvariantCodeMotion.cpp`.

The pass itself (the hoisting scan `findAndMove`, the legality check `move`,
the candidate filter `interestingToMove`, and the materialising walk
`UpdateLoops`) is translated below directly from the source file.  Its
collaborators (the IR node type from `wasm.h`, the effect analyzer from
`ir/effects.h`, the CFG walker from `cfg/cfg-traversal.h`, and the node
builder from `wasm-builder.h`) are not part of the repository snapshot and
are modelled from the specification, as marked on each definition.

Identity conventions (spec, section 9: arena/index scheme): loops are
identified by their label, candidate slots by the pair
(loop index, position in that loop's body list), and the attribution map
`expressionLoops` is keyed by slot.
-/

/-! ## Effect sets (external collaborator, modelled from the spec) -/

/-- Modelled from the spec: the effect set returned by the Effect Oracle
(`ir/effects.h`, absent from the snapshot): presence of calls, of control
transfers (branches), of implicit traps, and the sets of global locations
read and written. -/
structure EffectSet where
  calls : Bool
  branches : Bool
  implicitTrap : Bool
  globalsRead : List Nat
  globalsWritten : List Nat
deriving DecidableEq, Repr

/-- The empty effect set. -/
def EffectSet.empty : EffectSet := ⟨false, false, false, [], []⟩

/-- Union of two effect sets (effects of a node and of its children). -/
def EffectSet.union (a b : EffectSet) : EffectSet :=
  ⟨a.calls || b.calls, a.branches || b.branches, a.implicitTrap || b.implicitTrap,
    a.globalsRead ++ b.globalsRead, a.globalsWritten ++ b.globalsWritten⟩

/-- Two location lists intersect. -/
def locOverlap (xs ys : List Nat) : Bool :=
  xs.any (fun x => ys.contains x)

/-- Modelled from the spec: an effect set with any component at all (used to
make calls and branches conflict with everything the oracle cannot reorder
around them). -/
def EffectSet.hasAnything (a : EffectSet) : Bool :=
  a.calls || a.branches || a.implicitTrap ||
    !a.globalsRead.isEmpty || !a.globalsWritten.isEmpty

/-- Modelled from the spec: `invalidates(a, b)` — whether reordering the two
effect sets is unsafe.  Calls and branches conflict with any other effect or
read; reads and writes of the same global conflict (write-read, read-write
and write-write); traps alone never conflict (spec, section 4.3: the
repetition of a trap is irrelevant). -/
def EffectSet.invalidates (a b : EffectSet) : Bool :=
  (a.calls && b.hasAnything) || (b.calls && a.hasAnything) ||
  (a.branches && b.hasAnything) || (b.branches && a.hasAnything) ||
  locOverlap a.globalsWritten b.globalsRead ||
  locOverlap a.globalsRead b.globalsWritten ||
  locOverlap a.globalsWritten b.globalsWritten

/-! ## The IR (external collaborator, modelled from the spec) -/

/-- Modelled from the spec: value-producing expressions of the IR.
`udiv` carries an implicit trap (division by zero). -/
inductive VExpr where
  | constV (n : Nat)
  | getGlobal (g : Nat)
  | add (a b : VExpr)
  | sub (a b : VExpr)
  | udiv (a b : VExpr)
deriving DecidableEq, Repr

mutual
/-- Modelled from the spec: IR expression nodes (`wasm.h`, absent from the
snapshot): a no-op, a value expression in statement position, a global
write, a dropped value, a call, an unconditional and a conditional branch,
and the two structured control constructs (block and loop), each carrying a
label that branches may target. -/
inductive Expr where
  | nop
  | val (v : VExpr)
  | setGlobal (g : Nat) (v : VExpr)
  | dropV (v : VExpr)
  | callE (f : Nat)
  | brE (l : Nat)
  | brIf (l : Nat) (c : VExpr)
  | blockE (lbl : Option Nat) (body : ExprList)
  | loopE (lbl : Nat) (body : ExprList)
deriving DecidableEq, Repr

/-- Child list of a block or loop node. -/
inductive ExprList where
  | nil
  | cons (e : Expr) (es : ExprList)
deriving DecidableEq, Repr
end

/-- Conversion from a Lean list of expressions to a child list. -/
def ExprList.ofList : List Expr → ExprList
  | [] => .nil
  | e :: es => .cons e (ExprList.ofList es)

/-- Modelled from the spec: result types — "no value" or a concrete value
type. -/
inductive IrType where
  | none
  | i32
deriving DecidableEq, Repr

mutual
/-- Modelled from the spec: the result type of an expression.  Blocks and
loops take the type of the last element of their body. -/
def Expr.ty : Expr → IrType
  | .nop => .none
  | .val _ => .i32
  | .setGlobal _ _ => .none
  | .dropV _ => .none
  | .callE _ => .none
  | .brE _ => .none
  | .brIf _ _ => .none
  | .blockE _ body => lastTy body
  | .loopE _ body => lastTy body

/-- Result type of the last element of a child list (none if empty). -/
def lastTy : ExprList → IrType
  | .nil => .none
  | .cons e .nil => e.ty
  | .cons _ (.cons e es) => lastTy (.cons e es)
end

/-- The node is a `Nop` (the source's `curr->is<Nop>()`). -/
def Expr.isNop : Expr → Bool
  | .nop => true
  | _ => false

/-- Modelled from the spec: effect set of a value expression. -/
def VExpr.effects : VExpr → EffectSet
  | .constV _ => .empty
  | .getGlobal g => ⟨false, false, false, [g], []⟩
  | .add a b => a.effects.union b.effects
  | .sub a b => a.effects.union b.effects
  | .udiv a b => { a.effects.union b.effects with implicitTrap := true }

mutual
/-- Modelled from the spec: the Effect Oracle's `effectsOf(subtree)` — a
conservative syntactic summary of an expression's subtree. -/
def Expr.effects : Expr → EffectSet
  | .nop => .empty
  | .val v => v.effects
  | .setGlobal g v => v.effects.union ⟨false, false, false, [], [g]⟩
  | .dropV v => v.effects
  | .callE _ => ⟨true, false, false, [], []⟩
  | .brE _ => ⟨false, true, false, [], []⟩
  | .brIf _ c => c.effects.union ⟨false, true, false, [], []⟩
  | .blockE _ body => listEffects body
  | .loopE _ body => listEffects body

/-- Combined effect set of a child list. -/
def listEffects : ExprList → EffectSet
  | .nil => .empty
  | .cons e es => e.effects.union (listEffects es)
end

/-! ## The pass state

The CFG walker (`cfg/cfg-traversal.h`) and the classifier's output are
modelled from the spec as explicit data: a list of basic blocks whose items
are either a loop entry or a movable candidate slot, plus the attribution
map.  The tree slots the pass mutates are the positions of each loop's body
list, held in `loopBodies`. -/

/-- An item of a basic block: a slot holding a `Loop`, or a candidate slot
(position `i` of loop `l`'s body).  The source stores `Expression**`
pointers; the classification mirrors what `dynCast<Loop>` observes, which
cannot change during the scan (candidate slots only ever receive no-ops). -/
inductive Item where
  | loopItem (l : Nat)
  | cand (l : Nat) (i : Nat)
deriving DecidableEq, Repr

/-- Modelled from the spec: a basic block — ordered items (entries become
`none` when the source nulls them with `currp = nullptr`) and successor
edges. -/
structure BBlock where
  items : List (Option Item)
  out : List Nat
deriving DecidableEq, Repr

/-- A successful hoist, as recorded for the moved-code table: the loop that
received the code, the candidate slot, and the expression that was moved.
This is the ghost trace of every `movedCode[loop].push_back(curr)`. -/
structure HoistRec where
  loopId : Nat
  slotLoop : Nat
  slotIdx : Nat
  expr : Expr
deriving DecidableEq, Repr

/-- Lookup in the moved-code table (`std::unordered_map`, keyed by loop
identity, modelled as an association list). -/
def mcGet : List (Nat × List Expr) → Nat → List Expr
  | [], _ => []
  | (k, v) :: rest, l => if k = l then v else mcGet rest l

/-- `movedCode[loop].push_back(e)`: append to the loop's entry, creating it
if absent. -/
def mcPush : List (Nat × List Expr) → Nat → Expr → List (Nat × List Expr)
  | [], l, e => [(l, [e])]
  | (k, v) :: rest, l, e =>
      if k = l then (k, v ++ [e]) :: rest else (k, v) :: mcPush rest l e

/-- The mutable state the pass operates on: the slots of every loop body,
the moved-code table, and the basic blocks (whose item entries the scan
nulls in place).  `hoisted`, `attempts` and `visited` are ghost
instrumentation appended to but never read by the algorithm: the hoists
performed, the candidates handed to `move`, and the order in which block
item lists are scanned. -/
structure PassState where
  loopBodies : List (List Expr)
  movedCode : List (Nat × List Expr)
  basicBlocks : List BBlock
  hoisted : List HoistRec
  attempts : List ((Nat × Nat) × Expr)
  visited : List Nat
deriving DecidableEq, Repr

/-- Content of candidate slot `(l, i)` (the source's `*currp`). -/
def getSlot (st : PassState) (l i : Nat) : Expr :=
  (st.loopBodies.getD l []).getD i Expr.nop

/-- Overwrite candidate slot `(l, i)` (the source's `*currp = ...`). -/
def setSlot (st : PassState) (l i : Nat) (e : Expr) : PassState :=
  { st with loopBodies := st.loopBodies.set l ((st.loopBodies.getD l []).set i e) }

/-- Combined effect set of loop `l`'s current body, i.e. of the subtree the
source hands to `EffectAnalyzer(getPassOptions(), loop)`. -/
def loopEffectsOf (st : PassState) (l : Nat) : EffectSet :=
  listEffects (ExprList.ofList (st.loopBodies.getD l []))

/-- Source lines 169-173: an expression is interesting to move when its type
is none and it is not already a no-op. -/
def interestingToMove (curr : Expr) : Bool :=
  (if curr.ty = IrType.none then true else false) && !curr.isNop

/-- The loop-side effect set `move` compares against: the loop body with the
candidate slot replaced by a no-op, and the branching flag cleared
(source lines 197-203). -/
def adjustedLoopEffects (st : PassState) (l i : Nat) (loop : Nat) : EffectSet :=
  { loopEffectsOf (setSlot st l i Expr.nop) loop with branches := false }

/-- Source lines 175-214, `move(currp, loop)`: the legality check and the
actual move.  Returns the updated state and whether the move happened.
The `assert(interestingToMove(curr))` of line 177 is a no-op at runtime and
is not modelled; the scan only calls `move` on interesting candidates. -/
def move (expressionLoops : Nat → Nat → Option Nat) (st : PassState)
    (l i : Nat) (loop : Nat) : PassState × Bool :=
  let curr := getSlot st l i
  if expressionLoops l i ≠ some loop then
    (st, false)
  else
    let myEffects := curr.effects
    if myEffects.calls || myEffects.branches then
      (st, false)
    else
      let stNop := setSlot st l i Expr.nop
      let loopEffects := { loopEffectsOf stNop loop with branches := false }
      if loopEffects.invalidates myEffects then
        (setSlot stNop l i curr, false)
      else
        ({ stNop with
            movedCode := mcPush stNop.movedCode loop curr,
            hoisted := stNop.hoisted ++ [⟨loop, l, i, curr⟩] }, true)

/-- Result of scanning one item list: final state, current loop, whether the
scan stopped at a control transfer, and the (possibly nulled) item list. -/
structure ScanRes where
  st : PassState
  curLoop : Option Nat
  stopped : Bool
  items : List (Option Item)
deriving DecidableEq, Repr

/-- Source lines 117-137, the loop over `block->contents.items`: null
entries are skipped; a `Loop` item sets the current loop; once inside a
loop, an item whose effects include a branch stops the scan of the whole
chain, and otherwise interesting items are handed to `move`, their entry
being nulled on success. -/
def scanItems (expressionLoops : Nat → Nat → Option Nat) :
    PassState → Option Nat → List (Option Item) → ScanRes
  | st, loop, [] => ⟨st, loop, false, []⟩
  | st, loop, none :: rest =>
      let r := scanItems expressionLoops st loop rest
      ⟨r.st, r.curLoop, r.stopped, none :: r.items⟩
  | st, _, some (Item.loopItem check) :: rest =>
      let r := scanItems expressionLoops st (some check) rest
      ⟨r.st, r.curLoop, r.stopped, some (Item.loopItem check) :: r.items⟩
  | st, none, some (Item.cand l i) :: rest =>
      let r := scanItems expressionLoops st none rest
      ⟨r.st, r.curLoop, r.stopped, some (Item.cand l i) :: r.items⟩
  | st, some loop, some (Item.cand l i) :: rest =>
      let curr := getSlot st l i
      if curr.effects.branches then
        ⟨st, some loop, true, some (Item.cand l i) :: rest⟩
      else if interestingToMove curr then
        let stA := { st with attempts := st.attempts ++ [((l, i), curr)] }
        let mr := move expressionLoops stA l i loop
        if mr.2 then
          let r := scanItems expressionLoops mr.1 (some loop) rest
          ⟨r.st, r.curLoop, r.stopped, none :: r.items⟩
        else
          let r := scanItems expressionLoops mr.1 (some loop) rest
          ⟨r.st, r.curLoop, r.stopped, some (Item.cand l i) :: r.items⟩
      else
        let r := scanItems expressionLoops st (some loop) rest
        ⟨r.st, r.curLoop, r.stopped, some (Item.cand l i) :: r.items⟩

/-- Source lines 116-144, the `while (1)` chain walk: scan the current
block's items, write the nulled entries back, and continue into the unique
successor unless the scan stopped or the block does not have exactly one
outgoing edge.  The fuel bounds the chain length; the source would loop
forever on a cycle of single-successor blocks, which structured control
flow does not produce. -/
def chain (expressionLoops : Nat → Nat → Option Nat) :
    Nat → PassState → Option Nat → Nat → PassState
  | 0, st, _, _ => st
  | Nat.succ fuel, st, loop, b =>
      let blk := st.basicBlocks.getD b ⟨[], []⟩
      let r := scanItems expressionLoops
        { st with visited := st.visited ++ [b] } loop blk.items
      let st' := { r.st with basicBlocks := r.st.basicBlocks.set b ⟨r.items, blk.out⟩ }
      if r.stopped then st'
      else
        match blk.out with
        | [next] => chain expressionLoops fuel st' r.curLoop next
        | _ => st'

/-- Source lines 112-145, `findAndMove`'s scanning phase: start a chain at
every basic block, with the current loop reset to null. -/
def findAndMove (expressionLoops : Nat → Nat → Option Nat) (st : PassState) :
    PassState :=
  (List.range st.basicBlocks.length).foldl
    (fun s b => chain expressionLoops s.basicBlocks.length s none b) st

mutual
/-- Source lines 149-166, the `UpdateLoops` post-order walk: every loop
whose moved-code entry is non-empty is replaced by a block holding the
moved code followed by the loop (`makeBlock(currMovedCode)` then
`ret->list.push_back(curr)`); the block a builder makes carries no label.
The moved statements themselves are outside the walked tree and are not
rewritten. -/
def materialize (m : Nat → List Expr) : Expr → Expr
  | .blockE lbl body => .blockE lbl (materializeList m body)
  | .loopE lbl body =>
      let inner := Expr.loopE lbl (materializeList m body)
      match m lbl with
      | [] => inner
      | moved => .blockE Option.none (ExprList.ofList (moved ++ [inner]))
  | e => e

/-- `materialize` over a child list. -/
def materializeList (m : Nat → List Expr) : ExprList → ExprList
  | .nil => .nil
  | .cons e es => .cons (materialize m e) (materializeList m es)
end

/-- Source lines 146-148 and 163-166: after the scan, the tree is rewritten
only when some code was actually moved. -/
def passOutputTree (st : PassState) (body : Expr) : Expr :=
  if st.movedCode.isEmpty then body
  else materialize (fun l => mcGet st.movedCode l) body

/-! ## Operational semantics (modelled from the spec)

No interpreter ships with the snapshot; the semantics of the IR is modelled
from the spec's description of observable behaviour (section 8): global
state, branch outcomes of structured control flow (a branch to a loop's
label restarts the loop, a branch to a block's label exits it), and traps
with their identity (the expression that trapped).  Fuel is consumed on
every step so that the interpreter is a structurally recursive, executable
function; any terminating execution is reproduced by a large enough fuel. -/

/-- Modelled from the spec: the global state (globals indexed by number). -/
abbrev GState := List Nat

/-- Evaluate a value expression: its number, or the sub-expression that
trapped first. -/
def evalV (g : GState) : VExpr → Except VExpr Nat
  | .constV n => .ok n
  | .getGlobal x => .ok (g.getD x 0)
  | .add a b => do pure ((← evalV g a) + (← evalV g b))
  | .sub a b => do pure ((← evalV g a) - (← evalV g b))
  | .udiv a b => do
      let x ← evalV g a
      let y ← evalV g b
      if y = 0 then .error (.udiv a b) else pure (x / y)

/-- Outcome of running an expression: fall-through, branch to a label,
trap (with the trapping expression as its identity), or fuel exhaustion. -/
inductive Res where
  | done (g : GState)
  | branch (l : Nat) (g : GState)
  | trap (src : VExpr) (g : GState)
  | timeout
deriving DecidableEq

mutual
/-- Modelled from the spec: run one expression.  `cs` gives the meaning of
calls (an arbitrary transformation of the global state). -/
def runE (cs : Nat → GState → GState) : Nat → GState → Expr → Res
  | 0, _, _ => .timeout
  | Nat.succ fuel, g, e =>
    match e with
    | .nop => .done g
    | .val v => match evalV g v with
        | .ok _ => .done g
        | .error t => .trap t g
    | .setGlobal x v => match evalV g v with
        | .ok n => .done (g.set x n)
        | .error t => .trap t g
    | .dropV v => match evalV g v with
        | .ok _ => .done g
        | .error t => .trap t g
    | .callE f => .done (cs f g)
    | .brE l => .branch l g
    | .brIf l c => match evalV g c with
        | .ok n => if n = 0 then .done g else .branch l g
        | .error t => .trap t g
    | .blockE lbl body => match runList cs fuel g body with
        | .branch l' g' => if some l' = lbl then .done g' else .branch l' g'
        | r => r
    | .loopE lbl body => match runList cs fuel g body with
        | .branch l' g' =>
            if l' = lbl then runE cs fuel g' (.loopE lbl body) else .branch l' g'
        | r => r

/-- Run a child list in order; the first non-fall-through outcome wins. -/
def runList (cs : Nat → GState → GState) : Nat → GState → ExprList → Res
  | 0, _, _ => .timeout
  | Nat.succ _, g, .nil => .done g
  | Nat.succ fuel, g, .cons e es =>
      match runE cs fuel g e with
      | .done g' => runList cs fuel g' es
      | r => r
end

/-! ## The concrete program for the semantic-equivalence claim

The function body is a single loop that runs twice:

  loop 0:
    global 0 := global 0 + 1     (the hoisting candidate)
    global 1 := global 1 - 1
    br_if 0 (global 1)           (continue while global 1 is non-zero)

The CFG below is the one the spec's CFG Builder produces for this body
(modelled from the spec, sections 4.1 and 6): a block holding the loop
entry, the loop-top block holding the three body slots with the back edge
and the exit as successors, and the exit block. -/

/-- The candidate: `global 0 := global 0 + 1`. -/
def exInc : Expr := .setGlobal 0 (.add (.getGlobal 0) (.constV 1))

/-- The counter update: `global 1 := global 1 - 1`. -/
def exDec : Expr := .setGlobal 1 (.sub (.getGlobal 1) (.constV 1))

/-- The back edge: `br_if 0 (global 1)`. -/
def exBr : Expr := .brIf 0 (.getGlobal 1)

/-- The loop body, in slot order. -/
def exBody : List Expr := [exInc, exDec, exBr]

/-- The original function body. -/
def exOrig : Expr := .loopE 0 (.ofList exBody)

/-- Modelled from the spec: the attribution map the Loop-Nesting Classifier
records for this body — every body slot belongs to loop 0. -/
def exAttrib : Nat → Nat → Option Nat :=
  fun l i => if l = 0 ∧ i < 3 then some 0 else none

/-- Modelled from the spec: the CFG the builder produces for this body. -/
def exState : PassState :=
  { loopBodies := [exBody],
    movedCode := [],
    basicBlocks :=
      [ ⟨[some (Item.loopItem 0)], [1]⟩,
        ⟨[some (Item.cand 0 0), some (Item.cand 0 1), some (Item.cand 0 2)], [1, 2]⟩,
        ⟨[], []⟩ ],
    hoisted := [], attempts := [], visited := [] }

/-- The state after the scanning phase. -/
def exFinal : PassState := findAndMove exAttrib exState

/-- The function body after the pass: the loop rebuilt from its mutated
slots, then rewritten by the materialiser. -/
def exOut : Expr :=
  passOutputTree exFinal (.loopE 0 (.ofList (exFinal.loopBodies.getD 0 [])))

/-- Calls do not occur in the example; their semantics is irrelevant. -/
def exCalls : Nat → GState → GState := fun _ g => g

/-! ## Basic list lemmas -/

theorem setOob {α : Type} : ∀ (xs : List α) (i : Nat) (a : α),
    xs.length ≤ i → xs.set i a = xs
  | [], _, _, _ => rfl
  | _ :: _, 0, _, h => by simp at h
  | x :: xs, i + 1, a, h => by
      simpa [List.set] using setOob xs i a (by simpa using h)

theorem getDOob {α : Type} : ∀ (xs : List α) (i : Nat) (d : α),
    xs.length ≤ i → xs.getD i d = d
  | [], _, _, _ => rfl
  | _ :: _, 0, _, h => by simp at h
  | x :: xs, i + 1, d, h => by
      simpa [List.getD_cons_succ] using getDOob xs i d (by simpa using h)

theorem getDSetSelf {α : Type} : ∀ (xs : List α) (i : Nat) (a d : α),
    i < xs.length → (xs.set i a).getD i d = a
  | [], i, _, _, h => by simp at h
  | x :: xs, 0, a, d, _ => rfl
  | x :: xs, i + 1, a, d, h => by
      simpa [List.set, List.getD_cons_succ] using
        getDSetSelf xs i a d (by simpa using h)

theorem getDSetNe {α : Type} : ∀ (xs : List α) (i j : Nat) (a d : α),
    i ≠ j → (xs.set i a).getD j d = xs.getD j d
  | [], _, _, _, _, _ => rfl
  | x :: xs, 0, 0, a, d, h => absurd rfl h
  | x :: xs, 0, j + 1, a, d, _ => by simp [List.set, List.getD_cons_succ]
  | x :: xs, i + 1, 0, a, d, _ => by simp [List.set]
  | x :: xs, i + 1, j + 1, a, d, h => by
      simpa [List.set, List.getD_cons_succ] using
        getDSetNe xs i j a d (fun hc => h (by simpa using hc))

theorem setGetDSelf {α : Type} : ∀ (xs : List α) (i : Nat) (d : α),
    i < xs.length → xs.set i (xs.getD i d) = xs
  | [], i, _, h => by simp at h
  | x :: xs, 0, d, _ => rfl
  | x :: xs, i + 1, d, h => by
      simpa [List.set, List.getD_cons_succ] using
        setGetDSelf xs i d (by simpa using h)

theorem setAppendLeft {α : Type} : ∀ (xs ys : List α) (i : Nat) (a : α),
    i < xs.length → (xs ++ ys).set i a = xs.set i a ++ ys
  | [], _, i, _, h => by simp at h
  | x :: xs, ys, 0, a, _ => rfl
  | x :: xs, ys, i + 1, a, h => by
      simpa [List.set] using setAppendLeft xs ys i a (by simpa using h)

theorem getDAppendLeft {α : Type} : ∀ (xs ys : List α) (i : Nat) (d : α),
    i < xs.length → (xs ++ ys).getD i d = xs.getD i d
  | [], _, i, _, h => by simp at h
  | x :: xs, ys, 0, d, _ => rfl
  | x :: xs, ys, i + 1, d, h => by
      simpa [List.getD_cons_succ] using getDAppendLeft xs ys i d (by simpa using h)

/-! ## Slot lemmas -/

theorem getSlot_setSlot_self (st : PassState) (l i : Nat) (e : Expr)
    (hl : l < st.loopBodies.length)
    (hi : i < (st.loopBodies.getD l []).length) :
    getSlot (setSlot st l i e) l i = e := by
  unfold getSlot setSlot
  simp only
  rw [getDSetSelf _ _ _ _ hl, getDSetSelf _ _ _ _ hi]

theorem getSlot_setSlot_ne (st : PassState) (l i l' i' : Nat) (e : Expr)
    (h : ¬(l = l' ∧ i = i')) :
    getSlot (setSlot st l i e) l' i' = getSlot st l' i' := by
  unfold getSlot setSlot
  simp only
  by_cases hl : l = l'
  · subst hl
    have hi : i ≠ i' := fun hc => h ⟨rfl, hc⟩
    by_cases hrange : l < st.loopBodies.length
    · rw [getDSetSelf _ _ _ _ hrange, getDSetNe _ _ _ _ _ hi]
    · rw [setOob _ _ _ (Nat.le_of_not_lt hrange)]
  · rw [getDSetNe _ _ _ _ _ hl]

theorem setSlot_restore (st : PassState) (l i : Nat) :
    setSlot (setSlot st l i Expr.nop) l i (getSlot st l i) = st := by
  unfold getSlot setSlot
  simp only
  by_cases hl : l < st.loopBodies.length
  · rw [getDSetSelf _ _ _ _ hl]
    by_cases hi : i < (st.loopBodies.getD l []).length
    · rw [List.set_set, List.set_set, setGetDSelf _ _ _ hi, setGetDSelf _ _ _ hl]
    · rw [setOob _ _ _ (Nat.le_of_not_lt hi), getDOob _ _ _ (Nat.le_of_not_lt hi),
        setOob _ _ _ (Nat.le_of_not_lt hi), List.set_set, setGetDSelf _ _ _ hl]
  · rw [setOob _ _ _ (Nat.le_of_not_lt hl), setOob _ _ _ (Nat.le_of_not_lt hl)]

theorem interesting_in_range {st : PassState} {l i : Nat}
    (h : interestingToMove (getSlot st l i) = true) :
    l < st.loopBodies.length ∧ i < (st.loopBodies.getD l []).length := by
  by_cases hl : l < st.loopBodies.length
  · refine ⟨hl, ?_⟩
    by_cases hi : i < (st.loopBodies.getD l []).length
    · exact hi
    · exfalso
      have : getSlot st l i = Expr.nop := by
        unfold getSlot
        rw [getDOob _ _ _ (Nat.le_of_not_lt hi)]
      rw [this] at h
      simp [interestingToMove, Expr.isNop] at h
  · exfalso
    have : getSlot st l i = Expr.nop := by
      unfold getSlot
      rw [getDOob _ _ _ (Nat.le_of_not_lt hl), List.getD]
      simp
    rw [this] at h
    simp [interestingToMove, Expr.isNop] at h

theorem interesting_ne_nop {e : Expr} (h : interestingToMove e = true) :
    e ≠ Expr.nop := by
  intro hc
  rw [hc] at h
  simp [interestingToMove, Expr.isNop] at h

/-! ## Moved-code table lemmas -/

theorem mcGet_mcPush_self : ∀ (m : List (Nat × List Expr)) (l : Nat) (e : Expr),
    mcGet (mcPush m l e) l = mcGet m l ++ [e]
  | [], l, e => by simp [mcGet, mcPush]
  | (k, v) :: rest, l, e => by
      by_cases h : k = l
      · subst h; simp [mcGet, mcPush]
      · simp [mcGet, mcPush, h, mcGet_mcPush_self rest l e]

theorem mcGet_mcPush_ne : ∀ (m : List (Nat × List Expr)) (l l' : Nat) (e : Expr),
    l ≠ l' → mcGet (mcPush m l e) l' = mcGet m l'
  | [], l, l', e, h => by simp [mcGet, mcPush, h]
  | (k, v) :: rest, l, l', e, h => by
      by_cases hk : k = l
      · subst hk
        simp [mcGet, mcPush, h]
      · simp [mcGet, mcPush, hk, mcGet_mcPush_ne rest l l' e h]

/-! ## Characterisation of `move` -/

theorem move_fail_eq {el : Nat → Nat → Option Nat} {st : PassState}
    {l i loop : Nat} (h : (move el st l i loop).2 = false) :
    (move el st l i loop).1 = st := by
  unfold move at h ⊢
  by_cases h1 : el l i ≠ some loop
  · simp [h1]
  · by_cases h2 : ((getSlot st l i).effects.calls || (getSlot st l i).effects.branches) = true
    · simp [h1, h2]
    · by_cases h3 : (EffectSet.invalidates
          { loopEffectsOf (setSlot st l i Expr.nop) loop with branches := false }
          (getSlot st l i).effects) = true
      · simp only [h1, h2, h3, if_false, if_true, ite_false, ite_true,
          Bool.not_eq_true] at h ⊢
        simp [setSlot_restore]
      · simp [h1, h2, h3] at h

theorem move_success_state {el : Nat → Nat → Option Nat} {st : PassState}
    {l i loop : Nat} (h : (move el st l i loop).2 = true) :
    (move el st l i loop).1 =
      { setSlot st l i Expr.nop with
          movedCode := mcPush st.movedCode loop (getSlot st l i),
          hoisted := st.hoisted ++ [⟨loop, l, i, getSlot st l i⟩] } := by
  unfold move at h ⊢
  by_cases h1 : el l i ≠ some loop
  · simp [h1] at h
  · by_cases h2 : ((getSlot st l i).effects.calls || (getSlot st l i).effects.branches) = true
    · simp [h1, h2] at h
    · by_cases h3 : (EffectSet.invalidates
          { loopEffectsOf (setSlot st l i Expr.nop) loop with branches := false }
          (getSlot st l i).effects) = true
      · simp [h1, h2, h3] at h
      · simp [h1, h2, h3]
        exact ⟨rfl, rfl⟩

theorem move_spec (el : Nat → Nat → Option Nat) (st : PassState)
    (l i loop : Nat) :
    (move el st l i loop).2 = false ↔
      (el l i ≠ some loop ∨ (getSlot st l i).effects.calls = true ∨
       (getSlot st l i).effects.branches = true ∨
       (adjustedLoopEffects st l i loop).invalidates (getSlot st l i).effects
         = true) := by
  unfold move adjustedLoopEffects
  by_cases h1 : el l i ≠ some loop
  · simp [h1]
  · by_cases h2c : (getSlot st l i).effects.calls = true
    · simp [h1, h2c]
    · by_cases h2b : (getSlot st l i).effects.branches = true
      · simp [h1, h2c, h2b]
      · by_cases h3 : (EffectSet.invalidates
            { loopEffectsOf (setSlot st l i Expr.nop) loop with branches := false }
            (getSlot st l i).effects) = true
        · simp [h1, h2c, h2b, h3]
        · simp [h1, h2c, h2b, h3]

theorem move_success_conditions {el : Nat → Nat → Option Nat} {st : PassState}
    {l i loop : Nat} (h : (move el st l i loop).2 = true) :
    el l i = some loop ∧ (getSlot st l i).effects.calls = false ∧
      (getSlot st l i).effects.branches = false ∧
      (adjustedLoopEffects st l i loop).invalidates (getSlot st l i).effects
        = false := by
  have hne : ¬((move el st l i loop).2 = false) := by simp [h]
  have hs := (move_spec el st l i loop).not.mp hne
  push_neg at hs
  obtain ⟨ha, hb, hc, hd⟩ := hs
  exact ⟨ha, by simpa using hb, by simpa using hc, by simpa using hd⟩

theorem move_attempts (el : Nat → Nat → Option Nat) (st : PassState)
    (l i loop : Nat) : (move el st l i loop).1.attempts = st.attempts := by
  cases h : (move el st l i loop).2 with
  | false => rw [move_fail_eq h]
  | true => rw [move_success_state h]; rfl

theorem move_visited (el : Nat → Nat → Option Nat) (st : PassState)
    (l i loop : Nat) : (move el st l i loop).1.visited = st.visited := by
  cases h : (move el st l i loop).2 with
  | false => rw [move_fail_eq h]
  | true => rw [move_success_state h]; rfl

theorem move_basicBlocks (el : Nat → Nat → Option Nat) (st : PassState)
    (l i loop : Nat) : (move el st l i loop).1.basicBlocks = st.basicBlocks := by
  cases h : (move el st l i loop).2 with
  | false => rw [move_fail_eq h]
  | true => rw [move_success_state h]; rfl

theorem move_getSlot_ne (el : Nat → Nat → Option Nat) (st : PassState)
    (l i loop l' i' : Nat) (hne : ¬(l = l' ∧ i = i')) :
    getSlot (move el st l i loop).1 l' i' = getSlot st l' i' := by
  cases h : (move el st l i loop).2 with
  | false => rw [move_fail_eq h]
  | true =>
      rw [move_success_state h]
      have : getSlot { setSlot st l i Expr.nop with
          movedCode := mcPush st.movedCode loop (getSlot st l i),
          hoisted := st.hoisted ++ [⟨loop, l, i, getSlot st l i⟩] } l' i'
          = getSlot (setSlot st l i Expr.nop) l' i' := rfl
      rw [this, getSlot_setSlot_ne _ _ _ _ _ _ hne]

theorem move_getSlot_self (el : Nat → Nat → Option Nat) (st : PassState)
    (l i loop : Nat) (hin : interestingToMove (getSlot st l i) = true)
    (h : (move el st l i loop).2 = true) :
    getSlot (move el st l i loop).1 l i = Expr.nop := by
  obtain ⟨hl, hi⟩ := interesting_in_range hin
  rw [move_success_state h]
  have heq : getSlot { setSlot st l i Expr.nop with
      movedCode := mcPush st.movedCode loop (getSlot st l i),
      hoisted := st.hoisted ++ [⟨loop, l, i, getSlot st l i⟩] } l i
      = getSlot (setSlot st l i Expr.nop) l i := rfl
  rw [heq, getSlot_setSlot_self _ _ _ _ hl hi]

/-! ## A preservation principle for the scan

Every state change the scanning phase performs is one of: a call to `move`
on an interesting candidate, the ghost log of an attempt, the ghost log of
a visited block, or writing a block's nulled item list back.  A predicate
preserved by these four steps is preserved by the whole scan. -/

structure Pres (el : Nat → Nat → Option Nat) (P : PassState → Prop) : Prop where
  moveStep : ∀ st l i loop, interestingToMove (getSlot st l i) = true →
    P st → P (move el st l i loop).1
  attemptStep : ∀ st l i, interestingToMove (getSlot st l i) = true →
    P st → P { st with attempts := st.attempts ++ [((l, i), getSlot st l i)] }
  visitStep : ∀ st b, P st → P { st with visited := st.visited ++ [b] }
  blocksStep : ∀ st b blk, P st → P { st with basicBlocks := st.basicBlocks.set b blk }

theorem pres_scanItems {el : Nat → Nat → Option Nat} {P : PassState → Prop}
    (hp : Pres el P) :
    ∀ (items : List (Option Item)) (st : PassState) (loop : Option Nat),
      P st → P (scanItems el st loop items).st := by
  intro items
  induction items with
  | nil =>
      intro st loop h
      simpa [scanItems] using h
  | cons x rest ih =>
      intro st loop h
      match x, loop with
      | none, loop =>
          simpa [scanItems] using ih st loop h
      | some (Item.loopItem check), loop =>
          simpa [scanItems] using ih st (some check) h
      | some (Item.cand l i), none =>
          simpa [scanItems] using ih st none h
      | some (Item.cand l i), some loop =>
          by_cases hbr : (getSlot st l i).effects.branches = true
          · simpa [scanItems, hbr] using h
          · by_cases hin : interestingToMove (getSlot st l i) = true
            · have hA : P { st with attempts := st.attempts ++ [((l, i), getSlot st l i)] } :=
                hp.attemptStep st l i hin h
              have hin' : interestingToMove (getSlot
                  { st with attempts := st.attempts ++ [((l, i), getSlot st l i)] } l i)
                  = true := hin
              have hM := hp.moveStep
                { st with attempts := st.attempts ++ [((l, i), getSlot st l i)] }
                l i loop hin' hA
              by_cases hmv : (move el
                  { st with attempts := st.attempts ++ [((l, i), getSlot st l i)] }
                  l i loop).2 = true
              · simpa [scanItems, hbr, hin, hmv] using ih _ (some loop) hM
              · simpa [scanItems, hbr, hin, hmv] using ih _ (some loop) hM
            · simpa [scanItems, hbr, hin] using ih st (some loop) h

theorem pres_chain {el : Nat → Nat → Option Nat} {P : PassState → Prop}
    (hp : Pres el P) :
    ∀ (fuel : Nat) (st : PassState) (loop : Option Nat) (b : Nat),
      P st → P (chain el fuel st loop b) := by
  intro fuel
  induction fuel with
  | zero => intro st loop b h; rw [chain]; exact h
  | succ fuel ih =>
      intro st loop b h
      have h1 : P { st with visited := st.visited ++ [b] } := hp.visitStep st b h
      have h2 := pres_scanItems hp (st.basicBlocks.getD b ⟨[], []⟩).items
        { st with visited := st.visited ++ [b] } loop h1
      have h3 := hp.blocksStep
        (scanItems el { st with visited := st.visited ++ [b] } loop
          (st.basicBlocks.getD b ⟨[], []⟩).items).st
        b
        ⟨(scanItems el { st with visited := st.visited ++ [b] } loop
            (st.basicBlocks.getD b ⟨[], []⟩).items).items,
          (st.basicBlocks.getD b ⟨[], []⟩).out⟩
        h2
      simp only [chain]
      split
      · exact h3
      · split
        · exact ih _ _ _ h3
        · exact h3

theorem pres_findAndMove {el : Nat → Nat → Option Nat} {P : PassState → Prop}
    (hp : Pres el P) (st : PassState) (h : P st) : P (findAndMove el st) := by
  unfold findAndMove
  generalize List.range st.basicBlocks.length = bs
  induction bs generalizing st with
  | nil => simpa using h
  | cons b rest ih =>
      simpa using ih (chain el st.basicBlocks.length st none b)
        (pres_chain hp _ _ _ _ h)

/-! ## Invariants carried through the scan -/

/-- Every logged attempt handed to `move` was interesting to move. -/
def AttemptsOk (st : PassState) : Prop :=
  ∀ p ∈ st.attempts, interestingToMove p.2 = true

theorem attemptsOk_pres (el : Nat → Nat → Option Nat) : Pres el AttemptsOk := by
  constructor
  · intro st l i loop _ h p hp
    rw [move_attempts] at hp
    exact h p hp
  · intro st l i hin h p hp
    rcases List.mem_append.mp hp with hold | hnew
    · exact h p hold
    · rcases List.mem_singleton.mp hnew with rfl
      exact hin
  · intro st b h p hp
    exact h p hp
  · intro st b blk h p hp
    exact h p hp

/-- Every hoist record respects the attribution map. -/
def HoistAttribOk (el : Nat → Nat → Option Nat) (st : PassState) : Prop :=
  ∀ r ∈ st.hoisted, el r.slotLoop r.slotIdx = some r.loopId

theorem hoistAttribOk_pres (el : Nat → Nat → Option Nat) :
    Pres el (HoistAttribOk el) := by
  constructor
  · intro st l i loop _ h r hr
    cases hmv : (move el st l i loop).2 with
    | false =>
        rw [move_fail_eq hmv] at hr
        exact h r hr
    | true =>
        rw [move_success_state hmv] at hr
        rcases List.mem_append.mp hr with hold | hnew
        · exact h r hold
        · rcases List.mem_singleton.mp hnew with rfl
          exact (move_success_conditions hmv).1
  · intro st l i _ h r hr
    exact h r hr
  · intro st b h r hr
    exact h r hr
  · intro st b blk h r hr
    exact h r hr

/-- Each slot is hoisted at most once, and a hoisted slot holds a no-op. -/
def HoistOnce (st : PassState) : Prop :=
  (st.hoisted.map (fun r => (r.slotLoop, r.slotIdx))).Nodup ∧
  ∀ r ∈ st.hoisted, getSlot st r.slotLoop r.slotIdx = Expr.nop

theorem hoistOnce_pres (el : Nat → Nat → Option Nat) : Pres el HoistOnce := by
  constructor
  · intro st l i loop hin h
    cases hmv : (move el st l i loop).2 with
    | false =>
        rw [move_fail_eq hmv]
        exact h
    | true =>
        have hslots : ∀ r ∈ st.hoisted, ¬(l = r.slotLoop ∧ i = r.slotIdx) := by
          intro r hr hc
          have hnop := h.2 r hr
          rw [← hc.1, ← hc.2] at hnop
          exact interesting_ne_nop (hnop ▸ hin) rfl
        constructor
        · rw [move_success_state hmv]
          simp only [List.map_append, List.map_cons, List.map_nil]
          rw [List.nodup_append]
          refine ⟨h.1, List.nodup_singleton _, ?_⟩
          intro p hp hq
          rcases List.mem_singleton.mp hq with rfl
          rcases List.mem_map.mp hp with ⟨r, hr, hre⟩
          exact hslots r hr ⟨congrArg Prod.fst hre.symm, congrArg Prod.snd hre.symm⟩
        · intro r hr
          have hmem : r ∈ st.hoisted ++ [⟨loop, l, i, getSlot st l i⟩] := by
            have : (move el st l i loop).1.hoisted
                = st.hoisted ++ [⟨loop, l, i, getSlot st l i⟩] := by
              rw [move_success_state hmv]
            rwa [this] at hr
          rcases List.mem_append.mp hmem with hold | hnew
          · have hne : ¬(l = r.slotLoop ∧ i = r.slotIdx) := hslots r hold
            rw [move_getSlot_ne el st l i loop _ _ hne]
            exact h.2 r hold
          · rcases List.mem_singleton.mp hnew with rfl
            exact move_getSlot_self el st l i loop hin hmv
  · intro st l i _ h
    exact ⟨h.1, h.2⟩
  · intro st b h
    exact ⟨h.1, h.2⟩
  · intro st b blk h
    exact ⟨h.1, h.2⟩

/-- The moved-code table is exactly the ghost trace of hoists, per loop and
in discovery order. -/
def MovedMatchesHoisted (st : PassState) : Prop :=
  ∀ L, mcGet st.movedCode L =
    (st.hoisted.filter (fun r => r.loopId == L)).map (fun r => r.expr)

theorem movedMatchesHoisted_pres (el : Nat → Nat → Option Nat) :
    Pres el MovedMatchesHoisted := by
  constructor
  · intro st l i loop _ h
    cases hmv : (move el st l i loop).2 with
    | false =>
        rw [move_fail_eq hmv]
        exact h
    | true =>
        intro L
        rw [move_success_state hmv]
        simp only
        by_cases hL : loop = L
        · subst hL
          rw [mcGet_mcPush_self, h loop]
          simp
        · rw [mcGet_mcPush_ne _ _ _ _ hL, h L]
          simp [List.filter_append]
          intro hc
          exact absurd hc hL
  · intro st l i _ h
    exact h
  · intro st b h
    exact h
  · intro st b blk h
    exact h

/-- A slot that is not interesting to move is never touched and never
hoisted. -/
def SlotUntouched (l0 i0 : Nat) (e0 : Expr) (st : PassState) : Prop :=
  getSlot st l0 i0 = e0 ∧ ∀ r ∈ st.hoisted, ¬(r.slotLoop = l0 ∧ r.slotIdx = i0)

theorem slotUntouched_pres (el : Nat → Nat → Option Nat) (l0 i0 : Nat)
    (e0 : Expr) (hni : interestingToMove e0 = false) :
    Pres el (SlotUntouched l0 i0 e0) := by
  constructor
  · intro st l i loop hin h
    have hne : ¬(l = l0 ∧ i = i0) := by
      intro hc
      rw [hc.1, hc.2, h.1, hni] at hin
      cases hin
    constructor
    · rw [move_getSlot_ne el st l i loop _ _ hne]
      exact h.1
    · intro r hr
      cases hmv : (move el st l i loop).2 with
      | false =>
          rw [move_fail_eq hmv] at hr
          exact h.2 r hr
      | true =>
          rw [move_success_state hmv] at hr
          rcases List.mem_append.mp hr with hold | hnew
          · exact h.2 r hold
          · rcases List.mem_singleton.mp hnew with rfl
            intro hc
            exact hne ⟨hc.1.symm ▸ rfl, hc.2.symm ▸ rfl⟩
  · intro st l i _ h
    exact ⟨h.1, h.2⟩
  · intro st b h
    exact ⟨h.1, h.2⟩
  · intro st b blk h
    exact ⟨h.1, h.2⟩

/-- Membership of a block in the visited trace is stable. -/
theorem memVisited_pres (el : Nat → Nat → Option Nat) (b : Nat) :
    Pres el (fun st => b ∈ st.visited) := by
  constructor
  · intro st l i loop _ h
    rw [move_visited]
    exact h
  · intro st l i _ h
    exact h
  · intro st bb h
    exact List.mem_append_left _ h
  · intro st bb blk h
    exact h

/-- The number of basic blocks is stable. -/
theorem blocksLen_pres (el : Nat → Nat → Option Nat) (n : Nat) :
    Pres el (fun st => st.basicBlocks.length = n) := by
  constructor
  · intro st l i loop _ h
    rw [move_basicBlocks]
    exact h
  · intro st l i _ h
    exact h
  · intro st b h
    exact h
  · intro st b blk h
    simpa [List.length_set] using h

/-! ## Equations for the chain walk -/

/-- One block's scan, as `chain` performs it: log the visit, then walk the
item list. -/
def scanBlock (el : Nat → Nat → Option Nat) (st : PassState)
    (loop : Option Nat) (b : Nat) : ScanRes :=
  scanItems el { st with visited := st.visited ++ [b] } loop
    (st.basicBlocks.getD b ⟨[], []⟩).items

/-- The state after scanning block `b` and writing its nulled item list
back. -/
def writeBack (el : Nat → Nat → Option Nat) (st : PassState)
    (loop : Option Nat) (b : Nat) : PassState :=
  { (scanBlock el st loop b).st with
      basicBlocks := (scanBlock el st loop b).st.basicBlocks.set b
        ⟨(scanBlock el st loop b).items, (st.basicBlocks.getD b ⟨[], []⟩).out⟩ }

/-- Unfolding of one step of the chain walk. -/
theorem chain_succ (el : Nat → Nat → Option Nat) (fuel : Nat) (st : PassState)
    (loop : Option Nat) (b : Nat) :
    chain el (Nat.succ fuel) st loop b =
      if (scanBlock el st loop b).stopped = true then writeBack el st loop b
      else
        match (st.basicBlocks.getD b ⟨[], []⟩).out with
        | [next] => chain el fuel (writeBack el st loop b)
            (scanBlock el st loop b).curLoop next
        | _ => writeBack el st loop b := rfl

/-- Every chain logs its start block as visited (one step of fuel is
enough). -/
theorem chain_visits_self (el : Nat → Nat → Option Nat) (fuel : Nat)
    (st : PassState) (loop : Option Nat) (b : Nat) :
    b ∈ (chain el (Nat.succ fuel) st loop b).visited := by
  have h1 : b ∈ ({ st with visited := st.visited ++ [b] } : PassState).visited := by
    simp
  have h2 := pres_scanItems (memVisited_pres el b)
    (st.basicBlocks.getD b ⟨[], []⟩).items
    { st with visited := st.visited ++ [b] } loop h1
  have h3 : b ∈ (writeBack el st loop b).visited := h2
  rw [chain_succ]
  split
  · exact h3
  · split
    · exact pres_chain (memVisited_pres el b) _ _ _ _ h3
    · exact h3

/-- `Pres` predicates persist through the fold over start blocks. -/
theorem pres_foldl {el : Nat → Nat → Option Nat} {P : PassState → Prop}
    (hp : Pres el P) :
    ∀ (bs : List Nat) (s : PassState), P s →
      P (bs.foldl (fun s b => chain el s.basicBlocks.length s none b) s) := by
  intro bs
  induction bs with
  | nil => intro s h; simpa using h
  | cons b rest ih =>
      intro s h
      simpa using ih _ (pres_chain hp _ _ _ _ h)

theorem foldl_visits_aux (el : Nat → Nat → Option Nat) :
    ∀ (bs : List Nat) (s : PassState),
      (∀ x ∈ bs, x < s.basicBlocks.length) → ∀ b ∈ bs,
        b ∈ (bs.foldl (fun s b => chain el s.basicBlocks.length s none b) s).visited := by
  intro bs
  induction bs with
  | nil => intro s _ b hb; simp at hb
  | cons hd tl ih =>
      intro s hlt b hb
      have hs' : (chain el s.basicBlocks.length s none hd).basicBlocks.length
          = s.basicBlocks.length :=
        pres_chain (blocksLen_pres el s.basicBlocks.length) _ _ _ _ rfl
      rcases List.mem_cons.mp hb with hbe | hbtl
      · subst hbe
        have hpos : 0 < s.basicBlocks.length :=
          Nat.lt_of_le_of_lt (Nat.zero_le b) (hlt b (by simp))
        obtain ⟨k, hk⟩ := Nat.exists_eq_add_of_lt hpos
        have hv : b ∈ (chain el s.basicBlocks.length s none b).visited := by
          rw [hk, Nat.zero_add]
          exact chain_visits_self el k s none b
        simpa using pres_foldl (memVisited_pres el b) tl _ hv
      · have hlt' : ∀ x ∈ tl,
            x < (chain el s.basicBlocks.length s none hd).basicBlocks.length := by
          rw [hs']
          intro x hx
          exact hlt x (List.mem_cons_of_mem _ hx)
        simpa using ih _ hlt' b hbtl

/-- Every basic block's item list is scanned (at least) once: the fold
starts a chain at every block. -/
theorem findAndMove_visits_all (el : Nat → Nat → Option Nat) (st : PassState)
    (b : Nat) (hb : b < st.basicBlocks.length) :
    b ∈ (findAndMove el st).visited := by
  unfold findAndMove
  exact foldl_visits_aux el (List.range st.basicBlocks.length) st
    (fun x hx => List.mem_range.mp hx) b (List.mem_range.mpr hb)

/-! ## Equations for the item scan -/

/-- A nulled entry is skipped: the scan of `none :: rest` is the scan of
`rest`, with the null entry kept in place. -/
theorem scanItems_skip_null (el : Nat → Nat → Option Nat) (st : PassState)
    (loop : Option Nat) (rest : List (Option Item)) :
    scanItems el st loop (none :: rest) =
      ⟨(scanItems el st loop rest).st, (scanItems el st loop rest).curLoop,
        (scanItems el st loop rest).stopped,
        none :: (scanItems el st loop rest).items⟩ := by
  simp [scanItems]

/-- A branching item stops the scan at once: the state is returned as it
stands and everything after the item is left unprocessed. -/
theorem scanItems_branch_stop (el : Nat → Nat → Option Nat) (st : PassState)
    (L l i : Nat) (rest : List (Option Item))
    (hbr : (getSlot st l i).effects.branches = true) :
    scanItems el st (some L) (some (Item.cand l i) :: rest) =
      ⟨st, some L, true, some (Item.cand l i) :: rest⟩ := by
  simp [scanItems, hbr]

/-- Scanning a concatenation whose first part stops: the second part is
never reached. -/
theorem scanItems_append_stopped (el : Nat → Nat → Option Nat) :
    ∀ (pre post : List (Option Item)) (st : PassState) (loop : Option Nat),
      (scanItems el st loop pre).stopped = true →
      scanItems el st loop (pre ++ post) =
        ⟨(scanItems el st loop pre).st, (scanItems el st loop pre).curLoop,
          true, (scanItems el st loop pre).items ++ post⟩ := by
  intro pre
  induction pre with
  | nil =>
      intro post st loop h
      simp [scanItems] at h
  | cons x rest ih =>
      intro post st loop h
      match x, loop with
      | none, loop =>
          simp only [List.cons_append, scanItems, List.append_eq] at h ⊢
          rw [ih post st loop h]
      | some (Item.loopItem check), loop =>
          simp only [List.cons_append, scanItems, List.append_eq] at h ⊢
          rw [ih post st (some check) h]
      | some (Item.cand l i), none =>
          simp only [List.cons_append, scanItems, List.append_eq] at h ⊢
          rw [ih post st none h]
      | some (Item.cand l i), some L =>
          by_cases hbr : (getSlot st l i).effects.branches = true
          · rw [List.cons_append, scanItems_branch_stop el st L l i _ hbr,
              scanItems_branch_stop el st L l i _ hbr]
            simp
          · rw [Bool.not_eq_true] at hbr
            by_cases hin : interestingToMove (getSlot st l i) = true
            · by_cases hmv : (move el
                  { st with attempts := st.attempts ++ [((l, i), getSlot st l i)] }
                  l i L).2 = true
              · simp only [List.cons_append, scanItems, hbr, hin, hmv,
                  List.append_eq, Bool.false_eq_true, if_false, if_true] at h ⊢
                rw [ih post _ (some L) h]
              · rw [Bool.not_eq_true] at hmv
                simp only [List.cons_append, scanItems, hbr, hin, hmv,
                  List.append_eq, Bool.false_eq_true, if_false, if_true] at h ⊢
                rw [ih post _ (some L) h]
            · rw [Bool.not_eq_true] at hin
              simp only [List.cons_append, scanItems, hbr, hin,
                List.append_eq, Bool.false_eq_true, if_false] at h ⊢
              rw [ih post _ (some L) h]

/-- Scanning a concatenation whose first part does not stop: the scan
continues into the second part from the state and loop the first part
reached. -/
theorem scanItems_append_go (el : Nat → Nat → Option Nat) :
    ∀ (pre post : List (Option Item)) (st : PassState) (loop : Option Nat),
      (scanItems el st loop pre).stopped = false →
      scanItems el st loop (pre ++ post) =
        ⟨(scanItems el (scanItems el st loop pre).st
            (scanItems el st loop pre).curLoop post).st,
          (scanItems el (scanItems el st loop pre).st
            (scanItems el st loop pre).curLoop post).curLoop,
          (scanItems el (scanItems el st loop pre).st
            (scanItems el st loop pre).curLoop post).stopped,
          (scanItems el st loop pre).items ++
            (scanItems el (scanItems el st loop pre).st
              (scanItems el st loop pre).curLoop post).items⟩ := by
  intro pre
  induction pre with
  | nil =>
      intro post st loop _
      simp only [List.nil_append, scanItems]
  | cons x rest ih =>
      intro post st loop h
      match x, loop with
      | none, loop =>
          simp only [List.cons_append, scanItems, List.append_eq] at h ⊢
          rw [ih post st loop h]
      | some (Item.loopItem check), loop =>
          simp only [List.cons_append, scanItems, List.append_eq] at h ⊢
          rw [ih post st (some check) h]
      | some (Item.cand l i), none =>
          simp only [List.cons_append, scanItems, List.append_eq] at h ⊢
          rw [ih post st none h]
      | some (Item.cand l i), some L =>
          by_cases hbr : (getSlot st l i).effects.branches = true
          · rw [scanItems_branch_stop el st L l i _ hbr] at h
            simp at h
          · rw [Bool.not_eq_true] at hbr
            by_cases hin : interestingToMove (getSlot st l i) = true
            · by_cases hmv : (move el
                  { st with attempts := st.attempts ++ [((l, i), getSlot st l i)] }
                  l i L).2 = true
              · simp only [List.cons_append, scanItems, hbr, hin, hmv,
                  List.append_eq, Bool.false_eq_true, if_false, if_true] at h ⊢
                rw [ih post _ (some L) h]
              · rw [Bool.not_eq_true] at hmv
                simp only [List.cons_append, scanItems, hbr, hin, hmv,
                  List.append_eq, Bool.false_eq_true, if_false, if_true] at h ⊢
                rw [ih post _ (some L) h]
            · rw [Bool.not_eq_true] at hin
              simp only [List.cons_append, scanItems, hbr, hin,
                List.append_eq, Bool.false_eq_true, if_false] at h ⊢
              rw [ih post _ (some L) h]

/-! ## Effect-set lemmas -/

theorem union_empty_left (a : EffectSet) : EffectSet.empty.union a = a := by
  cases a
  simp [EffectSet.union, EffectSet.empty]

theorem union_assoc (a b c : EffectSet) :
    (a.union b).union c = a.union (b.union c) := by
  simp [EffectSet.union, Bool.or_assoc, List.append_assoc]

theorem listEffects_ofList_append : ∀ (xs ys : List Expr),
    listEffects (ExprList.ofList (xs ++ ys)) =
      (listEffects (ExprList.ofList xs)).union (listEffects (ExprList.ofList ys)) := by
  intro xs
  induction xs with
  | nil =>
      intro ys
      simp [ExprList.ofList, listEffects, union_empty_left]
  | cons x xs ih =>
      intro ys
      simp only [List.cons_append, ExprList.ofList, listEffects, List.append_eq]
      rw [ih ys, union_assoc]

/-- If two states agree on a candidate's slot and on the placeholder-adjusted
loop effect set, `move` reaches the same verdict on both. -/
theorem move_decision (el : Nat → Nat → Option Nat) (st st' : PassState)
    (l i L : Nat)
    (hslot : getSlot st' l i = getSlot st l i)
    (hadj : adjustedLoopEffects st' l i L = adjustedLoopEffects st l i L) :
    (move el st' l i L).2 = (move el st l i L).2 := by
  have h1 := move_spec el st l i L
  have h2 := move_spec el st' l i L
  rw [hslot, hadj] at h2
  cases hb' : (move el st' l i L).2 with
  | false =>
      cases hb : (move el st l i L).2 with
      | false => rfl
      | true =>
          exfalso
          have hr := h2.mp hb'
          have := h1.mpr hr
          rw [hb] at this
          cases this
  | true =>
      cases hb : (move el st l i L).2 with
      | false =>
          exfalso
          have hr := h1.mp hb
          have := h2.mpr hr
          rw [hb'] at this
          cases this
      | true => rfl

/-- Append one statement at the end of a loop's body (used to state that
loop-internal branching does not influence the verdict). -/
def addStmt (st : PassState) (L : Nat) (e : Expr) : PassState :=
  { st with loopBodies := st.loopBodies.set L (st.loopBodies.getD L [] ++ [e]) }

theorem getD_nonempty_lt {α : Type} (xs : List (List α)) (L i : Nat)
    (hi : i < (xs.getD L []).length) : L < xs.length := by
  by_cases hL : L < xs.length
  · exact hL
  · rw [getDOob _ _ _ (Nat.le_of_not_lt hL)] at hi
    simp at hi

theorem getSlot_addStmt (st : PassState) (L i : Nat) (e : Expr)
    (hi : i < (st.loopBodies.getD L []).length) :
    getSlot (addStmt st L e) L i = getSlot st L i := by
  have hL := getD_nonempty_lt st.loopBodies L i hi
  unfold getSlot addStmt
  simp only
  rw [getDSetSelf _ _ _ _ hL, getDAppendLeft _ _ _ _ hi]

theorem adjusted_addBr (st : PassState) (L i n : Nat)
    (hi : i < (st.loopBodies.getD L []).length) :
    adjustedLoopEffects (addStmt st L (Expr.brE n)) L i L
      = adjustedLoopEffects st L i L := by
  have hL := getD_nonempty_lt st.loopBodies L i hi
  unfold adjustedLoopEffects loopEffectsOf setSlot addStmt
  simp only
  rw [getDSetSelf _ _ _ _ hL, getDSetSelf _ _ _ _ hL,
    setAppendLeft _ _ _ _ hi, List.set_set]
  rw [getDSetSelf _ _ _ _ hL]
  rw [listEffects_ofList_append]
  simp [ExprList.ofList, listEffects, Expr.effects, EffectSet.union, EffectSet.empty]

/-! ## Lemmas about the materialiser -/

theorem lastTy_ofList_concat : ∀ (xs : List Expr) (e : Expr),
    lastTy (ExprList.ofList (xs ++ [e])) = e.ty := by
  intro xs
  induction xs with
  | nil => intro e; rfl
  | cons x xs ih =>
      intro e
      cases xs with
      | nil => rfl
      | cons y ys =>
          simpa [ExprList.ofList, lastTy] using ih e

mutual
theorem materialize_ty (m : Nat → List Expr) :
    ∀ (e : Expr), (materialize m e).ty = e.ty
  | .nop => rfl
  | .val _ => rfl
  | .setGlobal _ _ => rfl
  | .dropV _ => rfl
  | .callE _ => rfl
  | .brE _ => rfl
  | .brIf _ _ => rfl
  | .blockE lbl body => by
      simp only [materialize, Expr.ty]
      exact materializeList_lastTy m body
  | .loopE lbl body => by
      cases hm : m lbl with
      | nil =>
          simp only [materialize, hm, Expr.ty]
          exact materializeList_lastTy m body
      | cons e0 es =>
          simp only [materialize, hm, Expr.ty]
          rw [lastTy_ofList_concat]
          simp only [Expr.ty]
          exact materializeList_lastTy m body

theorem materializeList_lastTy (m : Nat → List Expr) :
    ∀ (es : ExprList), lastTy (materializeList m es) = lastTy es
  | .nil => rfl
  | .cons e .nil => by
      simp only [materializeList, lastTy]
      exact materialize_ty m e
  | .cons e (.cons e2 es) => by
      simp only [materializeList, lastTy]
      exact materializeList_lastTy m (.cons e2 es)
end

/-- The materialiser's action on a loop with hoisted code. -/
theorem materialize_loop_nonempty (m : Nat → List Expr) (lbl : Nat)
    (body : ExprList) (hm : m lbl ≠ []) :
    materialize m (Expr.loopE lbl body) =
      Expr.blockE Option.none
        (ExprList.ofList (m lbl ++ [Expr.loopE lbl (materializeList m body)])) := by
  cases hme : m lbl with
  | nil => exact absurd hme hm
  | cons e0 es => simp [materialize, hme]

/-- The materialiser's action on a loop without hoisted code. -/
theorem materialize_loop_empty (m : Nat → List Expr) (lbl : Nat)
    (body : ExprList) (hm : m lbl = []) :
    materialize m (Expr.loopE lbl body) =
      Expr.loopE lbl (materializeList m body) := by
  simp [materialize, hm]

/-! ## Small facts about `interestingToMove` -/

theorem interesting_eq_false {e : Expr}
    (h : e.ty ≠ IrType.none ∨ e.isNop = true) :
    interestingToMove e = false := by
  unfold interestingToMove
  rcases h with h | h
  · simp [h]
  · simp [h]

theorem interesting_parts {e : Expr} (h : interestingToMove e = true) :
    e.ty = IrType.none ∧ e.isNop = false := by
  unfold interestingToMove at h
  by_cases ht : e.ty = IrType.none
  · simp only [ht, if_pos, if_true, Bool.true_and, Bool.not_eq_true'] at h
    exact ⟨ht, h⟩
  · simp [ht] at h

theorem invalidates_empty_left (b : EffectSet) (hc : b.calls = false)
    (hb : b.branches = false) :
    EffectSet.empty.invalidates b = false := by
  simp [EffectSet.invalidates, EffectSet.empty, EffectSet.hasAnything,
    locOverlap, hc, hb]

/-! ## The claims -/

/-- C4: `move` (the source's tryHoist) reports failure exactly when the
recorded attribution differs from the scanned loop, or the candidate's own
effect set contains a call or a possible control transfer, or the
placeholder-adjusted loop effect set invalidates the candidate's effect
set; every failure leaves the state — the candidate's slot and the
moved-code table — unchanged, and in particular a calling statement is
always rejected with the state untouched, before any conflict check. -/
theorem C4_move_failure (el : Nat → Nat → Option Nat) (st : PassState)
    (l i loop : Nat) :
    ((move el st l i loop).2 = false ↔
      (el l i ≠ some loop ∨ (getSlot st l i).effects.calls = true ∨
        (getSlot st l i).effects.branches = true ∨
        (adjustedLoopEffects st l i loop).invalidates (getSlot st l i).effects
          = true)) ∧
    ((move el st l i loop).2 = false → (move el st l i loop).1 = st) ∧
    ((getSlot st l i).effects.calls = true → move el st l i loop = (st, false)) := by
  refine ⟨move_spec el st l i loop, fun h => move_fail_eq h, fun hc => ?_⟩
  have h2 : (move el st l i loop).2 = false :=
    (move_spec el st l i loop).mpr (Or.inr (Or.inl hc))
  have h1 := move_fail_eq h2
  rw [Prod.ext_iff]
  exact ⟨h1, h2⟩

/-- A candidate that performs a call, for the C4 witness. -/
def w4State : PassState :=
  ⟨[[Expr.callE 3]], [], [], [], [], []⟩

/-- Witness for C4 at a concrete calling candidate. -/
theorem C4_move_failure_witness :
    (move (fun _ _ => some 0) w4State 0 0 0).2 = false ∧
    (move (fun _ _ => some 0) w4State 0 0 0).1 = w4State := by
  have h := C4_move_failure (fun _ _ => some 0) w4State 0 0 0
  have hc : (getSlot w4State 0 0).effects.calls = true := by decide
  have he := h.2.2 hc
  constructor
  · rw [he]
  · rw [he]

/-- C5: the effect set `move` uses on the loop side is the loop body with
the candidate's slot replaced by a no-op and the control-transfer flag
cleared; given the candidate passed its own call/branch test and the
attribution check, the verdict is exactly the adjusted set's `invalidates`
answer, appending a pure branch to the scanned loop's body never changes
the verdict, and a loop whose placeholder-adjusted effects are empty —
branches alone — never causes a rejection. -/
theorem C5_adjusted_loop_side (el : Nat → Nat → Option Nat) (st : PassState)
    (L i n : Nat) :
    (adjustedLoopEffects st L i L).branches = false ∧
    (el L i = some L → (getSlot st L i).effects.calls = false →
      (getSlot st L i).effects.branches = false →
      ((move el st L i L).2 = true ↔
        (adjustedLoopEffects st L i L).invalidates (getSlot st L i).effects
          = false)) ∧
    (i < (st.loopBodies.getD L []).length →
      (move el (addStmt st L (Expr.brE n)) L i L).2 = (move el st L i L).2) ∧
    (el L i = some L → (getSlot st L i).effects.calls = false →
      (getSlot st L i).effects.branches = false →
      adjustedLoopEffects st L i L = EffectSet.empty →
      (move el st L i L).2 = true) := by
  have hiff : ∀ (ha : el L i = some L)
      (hc : (getSlot st L i).effects.calls = false)
      (hb : (getSlot st L i).effects.branches = false),
      ((move el st L i L).2 = true ↔
        (adjustedLoopEffects st L i L).invalidates (getSlot st L i).effects
          = false) := by
    intro ha hc hb
    constructor
    · intro h2
      exact (move_success_conditions h2).2.2.2
    · intro hinv
      cases h2 : (move el st L i L).2 with
      | true => rfl
      | false =>
          rcases (move_spec el st L i L).mp h2 with hx | hx | hx | hx
          · exact absurd ha hx
          · rw [hc] at hx; cases hx
          · rw [hb] at hx; cases hx
          · rw [hinv] at hx; cases hx
  refine ⟨rfl, hiff, ?_, ?_⟩
  · intro hi
    exact move_decision el st (addStmt st L (Expr.brE n)) L i L
      (getSlot_addStmt st L i _ hi) (adjusted_addBr st L i n hi)
  · intro ha hc hb hadj
    exact (hiff ha hc hb).mpr (by
      rw [hadj]
      exact invalidates_empty_left _ hc hb)

/-- A hoistable store followed by a branch, for the C5 witness. -/
def w5State : PassState :=
  ⟨[[Expr.setGlobal 0 (VExpr.constV 1), Expr.brE 5]], [], [], [], [], []⟩

/-- Witness for C5 at a concrete loop whose only other effect is a
branch. -/
theorem C5_adjusted_loop_side_witness :
    (adjustedLoopEffects w5State 0 0 0).branches = false ∧
    (move (fun _ _ => some 0) w5State 0 0 0).2 = true ∧
    (move (fun _ _ => some 0) (addStmt w5State 0 (Expr.brE 7)) 0 0 0).2 =
      (move (fun _ _ => some 0) w5State 0 0 0).2 := by
  have h := C5_adjusted_loop_side (fun _ _ => some 0) w5State 0 0 7
  refine ⟨h.1, ?_, h.2.2.1 (by decide)⟩
  exact h.2.2.2 (by decide) (by decide) (by decide) (by decide)

/-- C7: an absent or disagreeing attribution entry makes `move` reject at
once with the state untouched; consequently every hoist record of a full
run names the loop its slot is attributed to, and an expression attributed
to loop A is never recorded as hoisted into a different loop B. -/
theorem C7_attribution_guard (el : Nat → Nat → Option Nat) (st : PassState)
    (h0 : st.hoisted = []) :
    (∀ (st' : PassState) (l i L : Nat), el l i ≠ some L →
        move el st' l i L = (st', false)) ∧
    (∀ r ∈ (findAndMove el st).hoisted,
        el r.slotLoop r.slotIdx = some r.loopId) ∧
    (∀ A B l i, el l i = some A → B ≠ A →
        ¬ ∃ r ∈ (findAndMove el st).hoisted,
            r.slotLoop = l ∧ r.slotIdx = i ∧ r.loopId = B) := by
  have hall : HoistAttribOk el (findAndMove el st) := by
    refine pres_findAndMove (hoistAttribOk_pres el) st ?_
    intro r hr
    rw [h0] at hr
    cases hr
  refine ⟨?_, hall, ?_⟩
  · intro st' l i L hne
    simp [move, hne]
  · intro A B l i ha hne hex
    rcases hex with ⟨r, hr, hl, hi, hB⟩
    have := hall r hr
    rw [hl, hi, hB, ha] at this
    exact hne (Option.some_injective _ this).symm

/-- A candidate whose attribution names a different loop, for the C7
witness. -/
def w7State : PassState :=
  ⟨[[Expr.setGlobal 0 (VExpr.constV 1)]], [],
    [⟨[some (Item.loopItem 0), some (Item.cand 0 0)], []⟩], [], [], []⟩

/-- The attribution map for the C7 witness: the only candidate is
attributed to loop 1, not to the loop 0 being scanned. -/
def w7Attrib : Nat → Nat → Option Nat :=
  fun l i => if l = 0 ∧ i = 0 then some 1 else none

/-- Witness for C7 at a concrete CFG whose candidate is attributed to an
unrelated loop. -/
theorem C7_attribution_guard_witness :
    move w7Attrib w7State 0 0 0 = (w7State, false) ∧
    ¬ ∃ r ∈ (findAndMove w7Attrib w7State).hoisted,
        r.slotLoop = 0 ∧ r.slotIdx = 0 ∧ r.loopId = 0 := by
  have h := C7_attribution_guard w7Attrib w7State rfl
  exact ⟨h.1 w7State 0 0 0 (by decide), h.2.2 1 0 0 0 (by decide) (by decide)⟩

/-- C3: an expression whose result type is not none, or which is already a
no-op, is never hoisted: its slot is untouched by the whole scan, it never
occurs in the hoist trace, and every candidate the scan ever hands to
`move` is none-typed and not a no-op. -/
theorem C3_result_typed_never_hoisted (el : Nat → Nat → Option Nat)
    (st : PassState) (l i : Nat) (h0 : st.hoisted = []) (ha : st.attempts = [])
    (hni : (getSlot st l i).ty ≠ IrType.none ∨ (getSlot st l i).isNop = true) :
    getSlot (findAndMove el st) l i = getSlot st l i ∧
    (¬ ∃ r ∈ (findAndMove el st).hoisted, r.slotLoop = l ∧ r.slotIdx = i) ∧
    (∀ p ∈ (findAndMove el st).attempts,
        p.2.ty = IrType.none ∧ p.2.isNop = false) := by
  have hun : SlotUntouched l i (getSlot st l i) (findAndMove el st) := by
    refine pres_findAndMove
      (slotUntouched_pres el l i (getSlot st l i) (interesting_eq_false hni)) st
      ⟨rfl, ?_⟩
    intro r hr
    rw [h0] at hr
    cases hr
  have hat : AttemptsOk (findAndMove el st) := by
    refine pres_findAndMove (attemptsOk_pres el) st ?_
    intro p hp
    rw [ha] at hp
    cases hp
  refine ⟨hun.1, ?_, ?_⟩
  · intro hex
    rcases hex with ⟨r, hr, hl, hi⟩
    exact hun.2 r hr ⟨hl, hi⟩
  · intro p hp
    exact interesting_parts (hat p hp)

/-- A value-typed candidate, for the C3 witness. -/
def w3State : PassState :=
  ⟨[[Expr.val (VExpr.getGlobal 0)]], [],
    [⟨[some (Item.loopItem 0), some (Item.cand 0 0)], []⟩], [], [], []⟩

/-- Witness for C3 at a concrete value-typed candidate. -/
theorem C3_result_typed_never_hoisted_witness :
    getSlot (findAndMove (fun _ _ => some 0) w3State) 0 0 = getSlot w3State 0 0 ∧
    ¬ ∃ r ∈ (findAndMove (fun _ _ => some 0) w3State).hoisted,
        r.slotLoop = 0 ∧ r.slotIdx = 0 := by
  have h := C3_result_typed_never_hoisted (fun _ _ => some 0) w3State 0 0 rfl rfl
    (Or.inl (by decide))
  exact ⟨h.1, h.2.1⟩

/-- C6: a successful `move` appends the original candidate expression (not
the placeholder) to exactly that loop's moved-code entry, leaves a
permanent no-op in the slot, the moved-code table of a full run lists each
loop's hoists in discovery order (the order of the hoist trace), and the
materialiser emits the moved code, in that order, immediately before the
loop. -/
theorem C6_success_and_order :
    (∀ (el : Nat → Nat → Option Nat) (st : PassState) (l i loop : Nat),
        (move el st l i loop).2 = true →
        mcGet (move el st l i loop).1.movedCode loop
          = mcGet st.movedCode loop ++ [getSlot st l i] ∧
        (interestingToMove (getSlot st l i) = true →
          getSlot (move el st l i loop).1 l i = Expr.nop)) ∧
    (∀ (el : Nat → Nat → Option Nat) (st : PassState),
        st.hoisted = [] → st.movedCode = [] →
        ∀ L, mcGet (findAndMove el st).movedCode L =
          ((findAndMove el st).hoisted.filter (fun r => r.loopId == L)).map
            (fun r => r.expr)) ∧
    (∀ (m : Nat → List Expr) (lbl : Nat) (body : ExprList), m lbl ≠ [] →
        materialize m (Expr.loopE lbl body) =
          Expr.blockE Option.none
            (ExprList.ofList (m lbl ++ [Expr.loopE lbl (materializeList m body)]))) := by
  refine ⟨?_, ?_, materialize_loop_nonempty⟩
  · intro el st l i loop h
    constructor
    · rw [move_success_state h]
      exact mcGet_mcPush_self st.movedCode loop (getSlot st l i)
    · intro hin
      exact move_getSlot_self el st l i loop hin h
  · intro el st h0 hmc L
    have := pres_findAndMove (movedMatchesHoisted_pres el) st (fun L => by
      rw [h0, hmc]
      simp [mcGet])
    exact this L

/-- Witness for C6 at the concrete two-iteration example. -/
theorem C6_success_and_order_witness :
    mcGet (move exAttrib exState 0 0 0).1.movedCode 0
      = mcGet exState.movedCode 0 ++ [getSlot exState 0 0] ∧
    getSlot (move exAttrib exState 0 0 0).1 0 0 = Expr.nop ∧
    materialize (fun l => if l = 0 then [exInc] else []) (Expr.loopE 0 (ExprList.ofList [Expr.nop])) =
      Expr.blockE Option.none (ExprList.ofList
        [exInc, Expr.loopE 0 (ExprList.ofList [Expr.nop])]) := by
  have h1 := C6_success_and_order.1 exAttrib exState 0 0 0 (by decide)
  have h3 := C6_success_and_order.2.2 (fun l => if l = 0 then [exInc] else [])
    0 (ExprList.ofList [Expr.nop]) (by decide)
  exact ⟨h1.1, h1.2 (by decide), h3⟩

/-- C8: the materialiser replaces every loop with a non-empty moved-code
entry, exactly once, by a block holding the moved statements followed by
the loop, the block's result type equals the loop's result type, a loop
with an empty entry stays a loop node in place, and the rewrite never
changes an expression's result type. -/
theorem C8_materialiser (m : Nat → List Expr) (lbl : Nat) (body : ExprList) :
    (m lbl ≠ [] →
      materialize m (Expr.loopE lbl body) =
        Expr.blockE Option.none
          (ExprList.ofList (m lbl ++ [Expr.loopE lbl (materializeList m body)])) ∧
      (Expr.blockE Option.none
          (ExprList.ofList (m lbl ++ [Expr.loopE lbl (materializeList m body)]))).ty
        = (Expr.loopE lbl body).ty) ∧
    (m lbl = [] →
      materialize m (Expr.loopE lbl body) =
        Expr.loopE lbl (materializeList m body)) ∧
    (∀ e, (materialize m e).ty = e.ty) := by
  refine ⟨?_, materialize_loop_empty m lbl body, materialize_ty m⟩
  intro hm
  refine ⟨materialize_loop_nonempty m lbl body hm, ?_⟩
  show lastTy (ExprList.ofList (m lbl ++ [Expr.loopE lbl (materializeList m body)]))
    = lastTy body
  rw [lastTy_ofList_concat]
  show lastTy (materializeList m body) = lastTy body
  exact materializeList_lastTy m body

/-- The moved-code map for the C8 witness. -/
def w8m : Nat → List Expr := fun l => if l = 0 then [exInc] else []

/-- The loop body for the C8 witness. -/
def w8body : ExprList := ExprList.ofList [Expr.nop, exDec]

/-- Witness for C8 at a concrete loop with one moved statement. -/
theorem C8_materialiser_witness :
    materialize w8m (Expr.loopE 0 w8body) =
      Expr.blockE Option.none
        (ExprList.ofList (w8m 0 ++ [Expr.loopE 0 (materializeList w8m w8body)])) ∧
    (Expr.blockE Option.none
        (ExprList.ofList (w8m 0 ++ [Expr.loopE 0 (materializeList w8m w8body)]))).ty
      = (Expr.loopE 0 w8body).ty ∧
    materialize w8m (Expr.loopE 1 w8body) =
      Expr.loopE 1 (materializeList w8m w8body) := by
  have h0 := C8_materialiser w8m 0 w8body
  have h1 := C8_materialiser w8m 1 w8body
  have ha := h0.1 (by decide)
  exact ⟨ha.1, ha.2, h1.2.1 (by decide)⟩

/-- C10: in a full run, no candidate slot is hoisted twice — the slot pairs
of the hoist trace are pairwise distinct — every hoisted slot ends the run
holding a no-op, and a hoist performed by the scan nulls the slot's entry
in the item list it was found in. -/
theorem C10_hoist_at_most_once (el : Nat → Nat → Option Nat) (st : PassState)
    (h0 : st.hoisted = []) :
    ((findAndMove el st).hoisted.map (fun r => (r.slotLoop, r.slotIdx))).Nodup ∧
    (∀ r ∈ (findAndMove el st).hoisted,
        getSlot (findAndMove el st) r.slotLoop r.slotIdx = Expr.nop) ∧
    (∀ (st' : PassState) (L l i : Nat) (rest : List (Option Item)),
        (getSlot st' l i).effects.branches = false →
        interestingToMove (getSlot st' l i) = true →
        (move el { st' with attempts := st'.attempts ++ [((l, i), getSlot st' l i)] }
            l i L).2 = true →
        (scanItems el st' (some L) (some (Item.cand l i) :: rest)).items =
          none :: (scanItems el
            (move el { st' with attempts := st'.attempts ++ [((l, i), getSlot st' l i)] }
              l i L).1 (some L) rest).items) := by
  have hinv : HoistOnce (findAndMove el st) := by
    refine pres_findAndMove (hoistOnce_pres el) st ⟨?_, ?_⟩
    · rw [h0]; exact List.nodup_nil
    · intro r hr
      rw [h0] at hr
      cases hr
  refine ⟨hinv.1, hinv.2, ?_⟩
  intro st' L l i rest hbr hin hmv
  simp [scanItems, hbr, hin, hmv]

/-- Witness for C10 at the concrete two-iteration example. -/
theorem C10_hoist_at_most_once_witness :
    ((findAndMove exAttrib exState).hoisted.map
        (fun r => (r.slotLoop, r.slotIdx))).Nodup ∧
    (scanItems exAttrib exState (some 0) [some (Item.cand 0 0)]).items =
      none :: (scanItems exAttrib
        (move exAttrib { exState with
            attempts := exState.attempts ++ [((0, 0), getSlot exState 0 0)] }
          0 0 0).1 (some 0) []).items := by
  have h := C10_hoist_at_most_once exAttrib exState rfl
  exact ⟨h.1, h.2.2 exState 0 0 0 [] (by decide) (by decide) (by decide)⟩

/-- C2: while scanning a chain with a loop in scope, an item whose effects
report a possible control transfer stops the scan immediately — the state
is returned as it stands, everything after the item (also across block
concatenation) is left unprocessed — a chain continues into a successor
exactly when the block has one outgoing edge and the scan did not stop,
and every candidate the scan ever hands to `move` is interesting to move
(none-typed and not a no-op). -/
theorem C2_chain_scan_discipline :
    (∀ (el : Nat → Nat → Option Nat) (st : PassState) (L l i : Nat)
        (rest : List (Option Item)),
        (getSlot st l i).effects.branches = true →
        scanItems el st (some L) (some (Item.cand l i) :: rest) =
          ⟨st, some L, true, some (Item.cand l i) :: rest⟩) ∧
    (∀ (el : Nat → Nat → Option Nat) (pre post : List (Option Item))
        (st : PassState) (loop : Option Nat),
        (scanItems el st loop pre).stopped = true →
        scanItems el st loop (pre ++ post) =
          ⟨(scanItems el st loop pre).st, (scanItems el st loop pre).curLoop,
            true, (scanItems el st loop pre).items ++ post⟩) ∧
    (∀ (el : Nat → Nat → Option Nat) (fuel : Nat) (st : PassState)
        (loop : Option Nat) (b : Nat),
        ((scanBlock el st loop b).stopped = true →
          chain el (Nat.succ fuel) st loop b = writeBack el st loop b) ∧
        ((scanBlock el st loop b).stopped = false →
          (∀ next, (st.basicBlocks.getD b ⟨[], []⟩).out = [next] →
            chain el (Nat.succ fuel) st loop b =
              chain el fuel (writeBack el st loop b)
                (scanBlock el st loop b).curLoop next) ∧
          ((st.basicBlocks.getD b ⟨[], []⟩).out.length ≠ 1 →
            chain el (Nat.succ fuel) st loop b = writeBack el st loop b))) ∧
    (∀ (el : Nat → Nat → Option Nat) (st : PassState), st.attempts = [] →
        ∀ p ∈ (findAndMove el st).attempts, interestingToMove p.2 = true) := by
  refine ⟨scanItems_branch_stop, scanItems_append_stopped, ?_, ?_⟩
  · intro el fuel st loop b
    constructor
    · intro hstop
      rw [chain_succ, if_pos hstop]
    · intro hstop
      constructor
      · intro next hout
        rw [chain_succ, if_neg (by simp [hstop]), hout]
      · intro hlen
        rcases hout : (st.basicBlocks.getD b ⟨[], []⟩).out with _ | ⟨a, t⟩
        · rw [chain_succ, if_neg (by simp [hstop]), hout]
        · rcases t with _ | ⟨c, t2⟩
          · rw [hout] at hlen
            simp at hlen
          · rw [chain_succ, if_neg (by simp [hstop]), hout]
  · intro el st ha
    refine pres_findAndMove (attemptsOk_pres el) st ?_
    intro p hp
    rw [ha] at hp
    cases hp

/-- Witness for C2 at the concrete two-iteration example: the conditional
branch item stops the scan, the stopped chain does not continue into the
unique successor, and the logged attempt is an interesting candidate. -/
theorem C2_chain_scan_discipline_witness :
    scanItems exAttrib exState (some 0) [some (Item.cand 0 2)] =
      ⟨exState, some 0, true, [some (Item.cand 0 2)]⟩ ∧
    chain exAttrib 1 exState (some 0) 1 = writeBack exAttrib exState (some 0) 1 ∧
    interestingToMove exInc = true := by
  refine ⟨C2_chain_scan_discipline.1 exAttrib exState 0 0 2 [] (by decide),
    (C2_chain_scan_discipline.2.2.1 exAttrib 0 exState (some 0) 1).1 (by decide),
    C2_chain_scan_discipline.2.2.2 exAttrib exState rfl ((0, 0), exInc) (by decide)⟩

/-- The two-block CFG (block 1 is the unique successor of block 0) on
which the scan visits block 1 twice. -/
def cx9State : PassState :=
  ⟨[], [], [⟨[], [1]⟩, ⟨[], []⟩], [], [], []⟩

/-- C9 fails on the code: the scan does not restrict chain starts to
blocks not yet visited — it starts a chain at every basic block — so block
1 of this two-block CFG has its item list scanned twice in one run, once
as the successor of block 0 and once as a chain start of its own. -/
theorem C9_counterexample_block_rescanned :
    (findAndMove (fun _ _ => none) cx9State).visited = [0, 1, 1] ∧
    (findAndMove (fun _ _ => none) cx9State).visited.count 1 = 2 := by
  decide

/-- C9 (amended): the engine starts a chain at every basic block, visited
before or not, so a block's item list may be scanned more than once per
run; re-scanning is harmless because entries nulled by an earlier hoist
are skipped. -/
theorem C9_amended_chain_starts (el : Nat → Nat → Option Nat) (st : PassState)
    (b : Nat) (hb : b < st.basicBlocks.length) :
    b ∈ (findAndMove el st).visited ∧
    (∀ (st' : PassState) (loop : Option Nat) (rest : List (Option Item)),
        scanItems el st' loop (none :: rest) =
          ⟨(scanItems el st' loop rest).st, (scanItems el st' loop rest).curLoop,
            (scanItems el st' loop rest).stopped,
            none :: (scanItems el st' loop rest).items⟩) :=
  ⟨findAndMove_visits_all el st b hb,
    fun st' loop rest => scanItems_skip_null el st' loop rest⟩

/-- Witness for the amended C9: block 1 of the concrete CFG is visited. -/
theorem C9_amended_chain_starts_witness :
    1 ∈ (findAndMove (fun _ _ => none) cx9State).visited :=
  (C9_amended_chain_starts (fun _ _ => none) cx9State 1 (by decide)).1

/-- The initial global state of the C1 counterexample: global 0 (the
accumulator) is 0, global 1 (the loop counter) is 2. -/
def exG0 : GState := [0, 2]

/-- C1 fails on the code: on the two-iteration loop
`loop { g0 := g0 + 1; g1 := g1 - 1; br_if (g1) }` the pass hoists the
self-referencing increment (its effect set does not conflict with the rest
of the loop, and `move` never checks a candidate against its own effects),
so the transformed body increments global 0 once instead of twice: the
original run ends with globals [2, 0], the transformed run with [1, 0]. -/
theorem C1_semantic_equivalence_fails :
    exFinal.movedCode = [(0, [exInc])] ∧
    exOut = Expr.blockE Option.none (ExprList.ofList
      [exInc, Expr.loopE 0 (ExprList.ofList [Expr.nop, exDec, exBr])]) ∧
    runE exCalls 99 exG0 exOrig = Res.done [2, 0] ∧
    runE exCalls 99 exG0 exOut = Res.done [1, 0] ∧
    runE exCalls 99 exG0 exOut ≠ runE exCalls 99 exG0 exOrig := by
  decide
